import Mathlib

/-!
Shallow embedding of the Metrics Recalculator (`calculateFinancialMetrics` in
`src/endpoints/gemini.ts`, lines 242-295) and proofs about it.

Modelling conventions:
* JavaScript numbers are modelled as exact rationals (`ℚ`); the spec explicitly
  leaves binary-float versus decimal semantics open.
* `x.toFixed(2)` followed by `parseFloat` is modelled as rounding half-up to two
  decimal places (`round2`); the spec leaves the tie-breaking mode open.
* The `transactions` input field is `Option (List Transaction)`: `none` stands
  for all of "absent / null / not an array" (the guard on line 243), `some`
  for a genuine array.  Likewise `calculateFinancialMetrics` takes an
  `Option PeriodData`, `none` modelling a missing/null `periodData` argument.
* The `categories` accumulator object (lines 258-269) is modelled as an
  insertion-ordered association list (`insertedCategories`).  `Object.values`
  (line 272) enumerates own property keys in the ECMAScript
  `OrdinaryOwnPropertyKeys` order: array-index keys — canonical base-10
  numerals with value below `2^32 - 1` — first, in ascending numeric order,
  and the remaining string keys afterwards in insertion order;
  `objectValuesOrder` models exactly this rule.
* `Array.prototype.sort` with comparator `(a, b) => b.amount - a.amount`
  (line 279) is required by ES2019 to be a stable sort; its result is the
  unique stable descending-by-amount permutation, modelled with the stable
  `List.insertionSort` under the relation `byAmountDesc`.
* The `JSON.parse(JSON.stringify(...))` deep copy (line 248) is the identity
  on the values modelled here, so it does not appear explicitly.
-/

/-- A transaction as extracted by the upstream model (items of the
`transactions` array in the response schema). -/
structure Transaction where
  date : String
  description : String
  amount : ℚ
  category : String
  emoji : String
  deriving DecidableEq

/-- A candidate recurring charge (items of the `possibleSubscriptions` array). -/
structure SubscriptionCandidate where
  name : String
  amount : ℚ
  emoji : String
  deriving DecidableEq

/-- One period object of the parsed AI response, as consumed by
`calculateFinancialMetrics`. -/
structure PeriodData where
  period : String
  currency : String
  transactions : Option (List Transaction)
  possibleSubscriptions : Option (List SubscriptionCandidate)
  deriving DecidableEq

/-- An entry of the `categories` accumulator object (lines 258-269): a category
name together with the running amount and the emoji recorded when the key was
first inserted. -/
structure CatAcc where
  name : String
  amount : ℚ
  emoji : String
  deriving DecidableEq

/-- An entry of the final `categoryBreakdown` array (after the rounding /
percentage pass of lines 273-276). -/
structure CategoryAggregate where
  name : String
  amount : ℚ
  percentage : ℚ
  emoji : String
  deriving DecidableEq

/-- The `subscriptions` object built on lines 285-289. -/
structure SubscriptionSummary where
  count : ℕ
  total : ℚ
  list : List SubscriptionCandidate
  deriving DecidableEq

/-- The output of `calculateFinancialMetrics`: the period object enriched with
`totalSpend`, `formattedTotal`, `categoryBreakdown` and `subscriptions`; the
transient `possibleSubscriptions` field is deleted (line 292) and hence absent
from this structure. -/
structure PeriodSummary where
  period : String
  currency : String
  transactions : List Transaction
  totalSpend : ℚ
  formattedTotal : String
  categoryBreakdown : List CategoryAggregate
  subscriptions : SubscriptionSummary
  deriving DecidableEq

/-- `parseFloat(x.toFixed(2))`: round to two decimal places (half-up). -/
def round2 (x : ℚ) : ℚ := (⌊x * 100 + 1 / 2⌋ : ℤ) / 100

/-- `x.toFixed(2)` as a string, for the nonnegative values it is applied to in
the source (`result.totalSpend.toFixed(2)`, line 255). -/
def toFixed2 (x : ℚ) : String :=
  let n : ℤ := ⌊x * 100 + 1 / 2⌋
  let sign := if n < 0 then "-" else ""
  let m := n.natAbs
  sign ++ toString (m / 100) ++ "." ++ (if m % 100 < 10 then "0" else "") ++ toString (m % 100)

/-- `l.reduce((sum, a) => sum + f(a), 0)`: fold summing `f` over a list,
starting from `0` (lines 252 and 283). -/
def sumBy (f : α → ℚ) (l : List α) : ℚ := l.foldl (fun s a => s + f a) 0

/-- The body of the `forEach` update `categories[category].amount +=
Math.abs(transaction.amount)` (line 268), applied pointwise: bump the matching
accumulator entry. -/
def bumpAmount (t : Transaction) (c : CatAcc) : CatAcc :=
  if c.name = t.category then { c with amount := c.amount + |t.amount| } else c

/-- One iteration of the `forEach` on lines 259-269: ensure an entry with
amount `0` and the transaction's emoji exists for `t.category`, then add
`Math.abs(t.amount)` to that entry. -/
def insertSpendTransaction (acc : List CatAcc) (t : Transaction) : List CatAcc :=
  let ensured :=
    if acc.any (fun c => decide (c.name = t.category)) then acc
    else acc ++ [⟨t.category, 0, t.emoji⟩]
  ensured.map (bumpAmount t)

/-- The `categories` object after the whole `forEach` (lines 258-269), as an
association list in key-insertion order (`Object.values` reads it off in a
different order, see `objectValuesOrder`). -/
def insertedCategories (ts : List Transaction) : List CatAcc :=
  ts.foldl insertSpendTransaction []

/-- Base-10 value of a character list read as digits (junk on non-digits; the
round-trip check in `arrayIndexOf` discards those cases). -/
def digitsVal (cs : List Char) : ℕ :=
  cs.foldl (fun n c => n * 10 + (c.toNat - 48)) 0

/-- The ECMAScript array-index test for a property key: `s` is an array index
exactly when it is the canonical base-10 numeral of some `n < 2^32 - 1`
(equivalently, `ToString(ToUint32(s)) = s` and `s ≠ "4294967295"`); returns
that numeric value. -/
def arrayIndexOf (s : String) : Option ℕ :=
  if toString (digitsVal s.data) = s ∧ digitsVal s.data < 4294967295 then
    some (digitsVal s.data)
  else none

/-- Ascending numeric order on array-index entries, used to model the
enumeration order of array-index keys in `OrdinaryOwnPropertyKeys`. -/
def byIndexAsc (a b : CatAcc) : Prop :=
  (arrayIndexOf a.name).getD 0 ≤ (arrayIndexOf b.name).getD 0

instance : DecidableRel byIndexAsc :=
  fun a b => inferInstanceAs (Decidable ((arrayIndexOf a.name).getD 0 ≤ (arrayIndexOf b.name).getD 0))

instance : IsTotal CatAcc byIndexAsc :=
  ⟨fun _ _ => le_total _ _⟩

instance : IsTrans CatAcc byIndexAsc :=
  ⟨fun _ _ _ => le_trans⟩

/-- The enumeration order of `Object.values` (line 272) on the `categories`
object per `OrdinaryOwnPropertyKeys`: entries whose key is an array index
first, in ascending numeric order, then the remaining entries in insertion
order. -/
def objectValuesOrder (acc : List CatAcc) : List CatAcc :=
  (acc.filter fun c => (arrayIndexOf c.name).isSome).insertionSort byIndexAsc ++
    (acc.filter fun c => (arrayIndexOf c.name).isNone)

/-- The value list produced by `Object.values(categories)` on line 272. -/
def buildCategories (ts : List Transaction) : List CatAcc :=
  objectValuesOrder (insertedCategories ts)

/-- The per-entry pass of lines 273-276: round the accumulated amount to two
decimals, then attach `percentage = round2(amount / totalSpend * 100)` computed
from the already-rounded amount. -/
def finalizeCategory (totalSpend : ℚ) (c : CatAcc) : CategoryAggregate :=
  let amt := round2 c.amount
  ⟨c.name, amt, round2 (amt / totalSpend * 100), c.emoji⟩

/-- The order imposed by the comparator `(a, b) => b.amount - a.amount`
(line 279): `a` may precede `b` when `b.amount ≤ a.amount`. -/
def byAmountDesc (a b : CategoryAggregate) : Prop := b.amount ≤ a.amount

instance : DecidableRel byAmountDesc :=
  fun a b => inferInstanceAs (Decidable (b.amount ≤ a.amount))

instance : IsTotal CategoryAggregate byAmountDesc :=
  ⟨fun a b => le_total b.amount a.amount⟩

instance : IsTrans CategoryAggregate byAmountDesc :=
  ⟨fun _ _ _ hab hbc => le_trans hbc hab⟩

/-- The Metrics Recalculator, `calculateFinancialMetrics` (lines 242-295).
`none` is returned exactly for the guard of lines 243-245 (missing `periodData`
or missing/null/non-array `transactions`). -/
def calculateFinancialMetrics (periodData : Option PeriodData) : Option PeriodSummary :=
  match periodData with
  | none => none
  | some pd =>
    match pd.transactions with
    | none => none
    | some txns =>
      let spendTransactions := txns.filter (fun t => decide (t.amount < 0))
      let totalSpend := sumBy (fun t => |t.amount|) spendTransactions
      let categoryBreakdown :=
        ((buildCategories spendTransactions).map (finalizeCategory totalSpend)).insertionSort
          byAmountDesc
      let subs := pd.possibleSubscriptions.getD []
      let subscriptionTotal := sumBy (fun s => |s.amount|) subs
      some
        { period := pd.period
          currency := pd.currency
          transactions := txns
          totalSpend := totalSpend
          formattedTotal := pd.currency ++ toFixed2 totalSpend
          categoryBreakdown := categoryBreakdown
          subscriptions := ⟨subs.length, round2 subscriptionTotal, subs⟩ }

/-- The spend set: transactions with negative amount (line 251). -/
def spendOf (txns : List Transaction) : List Transaction :=
  txns.filter (fun t => decide (t.amount < 0))

/-- Total absolute amount of the transactions of category `c` in `txns`. -/
def categorySpend (txns : List Transaction) (c : String) : ℚ :=
  sumBy (fun t => |t.amount|) (txns.filter (fun t => decide (t.category = c)))

/-- Index of the first transaction of category `c` in `txns` (length if none). -/
def firstIdxOfCategory (txns : List Transaction) (c : String) : ℕ :=
  txns.findIdx (fun t => decide (t.category = c))

/-- The relative order in which `Object.values` enumerates two distinct
category keys of the object built from `ts`: array-index names compare by
numeric value, an array-index name precedes every non-index name, and two
non-index names compare by first occurrence in `ts`. -/
def jsKeyOrder (ts : List Transaction) (c d : String) : Prop :=
  match arrayIndexOf c, arrayIndexOf d with
  | some i, some j => i < j
  | some _, none => True
  | none, some _ => False
  | none, none => firstIdxOfCategory ts c < firstIdxOfCategory ts d

/-! Basic facts about `sumBy`. -/

theorem foldl_sumBy (f : α → ℚ) :
    ∀ (l : List α) (x : ℚ), l.foldl (fun s a => s + f a) x = x + sumBy f l
  | [], x => by simp [sumBy]
  | a :: l, x => by
    simp only [List.foldl_cons, sumBy]
    rw [foldl_sumBy f l (x + f a), foldl_sumBy f l (0 + f a)]
    ring

theorem sumBy_nil (f : α → ℚ) : sumBy f [] = 0 := rfl

theorem sumBy_cons (f : α → ℚ) (a : α) (l : List α) : sumBy f (a :: l) = f a + sumBy f l := by
  simp only [sumBy, List.foldl_cons]
  rw [foldl_sumBy]
  ring_nf
  rw [sumBy]

theorem sumBy_append (f : α → ℚ) (l₁ l₂ : List α) :
    sumBy f (l₁ ++ l₂) = sumBy f l₁ + sumBy f l₂ := by
  simp only [sumBy, List.foldl_append]
  rw [foldl_sumBy]
  rw [sumBy]

theorem sumBy_singleton (f : α → ℚ) (a : α) : sumBy f [a] = f a := by
  rw [sumBy_cons, sumBy_nil, add_zero]

theorem sumBy_eq_sum_map (f : α → ℚ) (l : List α) : sumBy f l = (l.map f).sum := by
  induction l with
  | nil => rfl
  | cons a l ih => rw [sumBy_cons, List.map_cons, List.sum_cons, ih]

theorem sumBy_nonneg {f : α → ℚ} {l : List α} (h : ∀ a ∈ l, 0 ≤ f a) : 0 ≤ sumBy f l := by
  induction l with
  | nil => exact le_refl 0
  | cons a l ih =>
    rw [sumBy_cons]
    have ha := h a (List.mem_cons_self a l)
    have hl := ih fun x hx => h x (List.mem_cons_of_mem a hx)
    linarith

theorem sumBy_pos {f : α → ℚ} {l : List α} (h : ∀ a ∈ l, 0 < f a) (hne : l ≠ []) :
    0 < sumBy f l := by
  cases l with
  | nil => exact absurd rfl hne
  | cons a l =>
    rw [sumBy_cons]
    have ha := h a (List.mem_cons_self a l)
    have hl := sumBy_nonneg fun x hx => le_of_lt (h x (List.mem_cons_of_mem a hx))
    linarith

theorem sumBy_le_sumBy_of_filter {f : α → ℚ} (h : ∀ a ∈ l, 0 ≤ f a) (p : α → Bool) :
    sumBy f (l.filter p) ≤ sumBy f l := by
  induction l with
  | nil => exact le_refl 0
  | cons a l ih =>
    have ha := h a (List.mem_cons_self a l)
    have hl := ih fun x hx => h x (List.mem_cons_of_mem a hx)
    rw [List.filter_cons]
    by_cases hp : p a
    · rw [if_pos hp, sumBy_cons, sumBy_cons]
      linarith
    · rw [if_neg hp, sumBy_cons]
      linarith

/-! Facts about the accumulator update `insertSpendTransaction` and the
insertion-ordered `categories` object `buildCategories`. -/

theorem bumpAmount_name (t : Transaction) (c : CatAcc) : (bumpAmount t c).name = c.name := by
  unfold bumpAmount
  split <;> rfl

theorem bumpAmount_emoji (t : Transaction) (c : CatAcc) : (bumpAmount t c).emoji = c.emoji := by
  unfold bumpAmount
  split <;> rfl

theorem bumpAmount_of_ne {t : Transaction} {c : CatAcc} (h : c.name ≠ t.category) :
    bumpAmount t c = c := by
  unfold bumpAmount
  rw [if_neg h]

theorem map_bumpAmount_of_not_mem {t : Transaction} {acc : List CatAcc}
    (h : t.category ∉ acc.map CatAcc.name) : acc.map (bumpAmount t) = acc := by
  have : ∀ c ∈ acc, bumpAmount t c = c := by
    intro c hc
    exact bumpAmount_of_ne fun he => h (he ▸ List.mem_map_of_mem CatAcc.name hc)
  rw [List.map_congr_left this]
  simp

theorem map_name_map_bumpAmount (t : Transaction) (acc : List CatAcc) :
    (acc.map (bumpAmount t)).map CatAcc.name = acc.map CatAcc.name := by
  rw [List.map_map]
  exact List.map_congr_left fun c _ => bumpAmount_name t c

theorem any_name_eq (acc : List CatAcc) (s : String) :
    (acc.any fun c => decide (c.name = s)) = true ↔ s ∈ acc.map CatAcc.name := by
  simp only [List.any_eq_true, decide_eq_true_eq, List.mem_map]

theorem insertSpendTransaction_of_mem {t : Transaction} {acc : List CatAcc}
    (h : t.category ∈ acc.map CatAcc.name) :
    insertSpendTransaction acc t = acc.map (bumpAmount t) := by
  unfold insertSpendTransaction
  rw [if_pos ((any_name_eq acc t.category).mpr h)]

theorem insertSpendTransaction_of_not_mem {t : Transaction} {acc : List CatAcc}
    (h : t.category ∉ acc.map CatAcc.name) :
    insertSpendTransaction acc t = acc ++ [⟨t.category, |t.amount|, t.emoji⟩] := by
  unfold insertSpendTransaction
  rw [if_neg (fun hc => h ((any_name_eq acc t.category).mp hc)), List.map_append,
    map_bumpAmount_of_not_mem h]
  simp [bumpAmount]

theorem insertedCategories_append (ts : List Transaction) (t : Transaction) :
    insertedCategories (ts ++ [t]) = insertSpendTransaction (insertedCategories ts) t := by
  simp [insertedCategories, List.foldl_append]

theorem mem_map_name_insertedCategories (ts : List Transaction) (c : String) :
    c ∈ (insertedCategories ts).map CatAcc.name ↔ c ∈ ts.map Transaction.category := by
  induction ts using List.reverseRecOn with
  | nil => simp [insertedCategories]
  | append_singleton ts t ih =>
    rw [insertedCategories_append]
    by_cases h : t.category ∈ (insertedCategories ts).map CatAcc.name
    · rw [insertSpendTransaction_of_mem h, map_name_map_bumpAmount, List.map_append]
      simp only [List.mem_append, List.map_cons, List.map_nil, List.mem_singleton]
      constructor
      · intro hc
        exact Or.inl (ih.mp hc)
      · rintro (hc | rfl)
        · exact ih.mpr hc
        · exact h
    · rw [insertSpendTransaction_of_not_mem h, List.map_append, List.map_append]
      simp only [List.mem_append, List.map_cons, List.map_nil, List.mem_singleton, ih]

theorem nodup_map_name_insertedCategories (ts : List Transaction) :
    ((insertedCategories ts).map CatAcc.name).Nodup := by
  induction ts using List.reverseRecOn with
  | nil => simp [insertedCategories]
  | append_singleton ts t ih =>
    rw [insertedCategories_append]
    by_cases h : t.category ∈ (insertedCategories ts).map CatAcc.name
    · rw [insertSpendTransaction_of_mem h, map_name_map_bumpAmount]
      exact ih
    · rw [insertSpendTransaction_of_not_mem h, List.map_append]
      rw [List.nodup_append]
      refine ⟨ih, List.nodup_singleton _, ?_⟩
      intro c hc hc'
      simp only [List.map_cons, List.map_nil, List.mem_singleton] at hc'
      exact h (hc' ▸ hc)

theorem categorySpend_append_singleton (ts : List Transaction) (t : Transaction) (c : String) :
    categorySpend (ts ++ [t]) c =
      categorySpend ts c + (if t.category = c then |t.amount| else 0) := by
  unfold categorySpend
  rw [List.filter_append, sumBy_append]
  congr 1
  by_cases h : t.category = c
  · rw [if_pos h]
    simp only [List.filter_cons, decide_eq_true_eq, if_pos h, List.filter_nil]
    exact sumBy_singleton _ t
  · rw [if_neg h]
    simp only [List.filter_cons, decide_eq_true_eq, if_neg h, List.filter_nil]
    rfl

theorem categorySpend_eq_zero_of_not_mem {ts : List Transaction} {c : String}
    (h : c ∉ ts.map Transaction.category) : categorySpend ts c = 0 := by
  unfold categorySpend
  have : ts.filter (fun t => decide (t.category = c)) = [] := by
    rw [List.filter_eq_nil_iff]
    intro t ht hc
    simp only [decide_eq_true_eq] at hc
    exact h (hc ▸ List.mem_map_of_mem Transaction.category ht)
  rw [this]
  rfl

theorem amount_insertedCategories (ts : List Transaction) :
    ∀ e ∈ insertedCategories ts, e.amount = categorySpend ts e.name := by
  induction ts using List.reverseRecOn with
  | nil => simp [insertedCategories]
  | append_singleton ts t ih =>
    rw [insertedCategories_append]
    by_cases h : t.category ∈ (insertedCategories ts).map CatAcc.name
    · rw [insertSpendTransaction_of_mem h]
      intro e he
      obtain ⟨c0, hc0, rfl⟩ := List.mem_map.mp he
      rw [bumpAmount_name, categorySpend_append_singleton]
      by_cases hname : c0.name = t.category
      · rw [bumpAmount, if_pos hname, if_pos hname.symm]
        simp only []
        rw [ih c0 hc0]
      · rw [bumpAmount_of_ne hname, if_neg (fun hh => hname hh.symm), add_zero, ih c0 hc0]
    · rw [insertSpendTransaction_of_not_mem h]
      intro e he
      rcases List.mem_append.mp he with he | he
      · have hne : e.name ≠ t.category :=
          fun hh => h (hh ▸ List.mem_map_of_mem CatAcc.name he)
        rw [categorySpend_append_singleton, if_neg (fun hh => hne hh.symm), add_zero, ih e he]
      · simp only [List.mem_singleton] at he
        subst he
        rw [categorySpend_append_singleton,
          categorySpend_eq_zero_of_not_mem
            (fun hc => h ((mem_map_name_insertedCategories ts _).mpr hc)),
          zero_add, if_pos rfl]

theorem emoji_insertedCategories (ts : List Transaction) :
    ∀ e ∈ insertedCategories ts,
      ∃ x, ts.find? (fun x => decide (x.category = e.name)) = some x ∧ e.emoji = x.emoji := by
  induction ts using List.reverseRecOn with
  | nil => simp [insertedCategories]
  | append_singleton ts t ih =>
    rw [insertedCategories_append]
    by_cases h : t.category ∈ (insertedCategories ts).map CatAcc.name
    · rw [insertSpendTransaction_of_mem h]
      intro e he
      obtain ⟨c0, hc0, rfl⟩ := List.mem_map.mp he
      obtain ⟨x, hx, hex⟩ := ih c0 hc0
      refine ⟨x, ?_, ?_⟩
      · rw [bumpAmount_name, List.find?_append, hx]
        rfl
      · rw [bumpAmount_emoji]
        exact hex
    · rw [insertSpendTransaction_of_not_mem h]
      intro e he
      rcases List.mem_append.mp he with he | he
      · obtain ⟨x, hx, hex⟩ := ih e he
        refine ⟨x, ?_, hex⟩
        rw [List.find?_append, hx]
        rfl
      · simp only [List.mem_singleton] at he
        subst he
        refine ⟨t, ?_, rfl⟩
        have hnone : ts.find? (fun x => decide (x.category = t.category)) = none := by
          rw [List.find?_eq_none]
          intro x hx hc
          simp only [decide_eq_true_eq] at hc
          exact h ((mem_map_name_insertedCategories ts _).mpr
            (hc ▸ List.mem_map_of_mem Transaction.category hx))
        rw [List.find?_append, hnone]
        simp

theorem firstIdx_lt_length_of_mem {ts : List Transaction} {c : String}
    (h : c ∈ ts.map Transaction.category) : firstIdxOfCategory ts c < ts.length := by
  unfold firstIdxOfCategory
  apply List.findIdx_lt_length_of_exists
  obtain ⟨x, hx, rfl⟩ := List.mem_map.mp h
  exact ⟨x, hx, by simp⟩

theorem firstIdx_append_singleton_of_mem {ts : List Transaction} {c : String}
    (h : c ∈ ts.map Transaction.category) (t : Transaction) :
    firstIdxOfCategory (ts ++ [t]) c = firstIdxOfCategory ts c := by
  have hlt := firstIdx_lt_length_of_mem h
  unfold firstIdxOfCategory at hlt ⊢
  rw [List.findIdx_append, if_pos hlt]

theorem firstIdx_append_singleton_self {ts : List Transaction} {t : Transaction}
    (h : t.category ∉ ts.map Transaction.category) :
    firstIdxOfCategory (ts ++ [t]) t.category = ts.length := by
  unfold firstIdxOfCategory
  have hlen : ts.findIdx (fun x => decide (x.category = t.category)) = ts.length := by
    apply List.findIdx_eq_length_of_false
    intro x hx
    simp only [decide_eq_false_iff_not]
    intro hc
    exact h (hc ▸ List.mem_map_of_mem Transaction.category hx)
  rw [List.findIdx_append, hlen, if_neg (lt_irrefl _)]
  simp [List.findIdx_cons]

theorem pairwise_firstIdx_insertedCategories (ts : List Transaction) :
    (insertedCategories ts).Pairwise
      (fun a b => firstIdxOfCategory ts a.name < firstIdxOfCategory ts b.name) := by
  induction ts using List.reverseRecOn with
  | nil => simp [insertedCategories]
  | append_singleton ts t ih =>
    rw [insertedCategories_append]
    by_cases h : t.category ∈ (insertedCategories ts).map CatAcc.name
    · rw [insertSpendTransaction_of_mem h]
      refine List.pairwise_map.mpr (ih.imp_of_mem ?_)
      intro a b ha hb hr
      rw [bumpAmount_name, bumpAmount_name,
        firstIdx_append_singleton_of_mem
          ((mem_map_name_insertedCategories ts _).mp (List.mem_map_of_mem CatAcc.name ha)),
        firstIdx_append_singleton_of_mem
          ((mem_map_name_insertedCategories ts _).mp (List.mem_map_of_mem CatAcc.name hb))]
      exact hr
    · rw [insertSpendTransaction_of_not_mem h]
      have hts : t.category ∉ ts.map Transaction.category :=
        fun hc => h ((mem_map_name_insertedCategories ts _).mpr hc)
      rw [List.pairwise_append]
      refine ⟨ih.imp_of_mem ?_, List.pairwise_singleton _ _, ?_⟩
      · intro a b ha hb hr
        rw [firstIdx_append_singleton_of_mem
            ((mem_map_name_insertedCategories ts _).mp (List.mem_map_of_mem CatAcc.name ha)),
          firstIdx_append_singleton_of_mem
            ((mem_map_name_insertedCategories ts _).mp (List.mem_map_of_mem CatAcc.name hb))]
        exact hr
      · intro a ha b hb
        simp only [List.mem_singleton] at hb
        subst hb
        have hmem := (mem_map_name_insertedCategories ts _).mp (List.mem_map_of_mem CatAcc.name ha)
        rw [firstIdx_append_singleton_of_mem hmem, firstIdx_append_singleton_self hts]
        exact firstIdx_lt_length_of_mem hmem

theorem sumBy_amount_map_bumpAmount {t : Transaction} :
    ∀ {acc : List CatAcc}, (acc.map CatAcc.name).Nodup → t.category ∈ acc.map CatAcc.name →
      sumBy CatAcc.amount (acc.map (bumpAmount t)) = sumBy CatAcc.amount acc + |t.amount| := by
  intro acc
  induction acc with
  | nil => simp
  | cons c0 acc ih =>
    intro hnodup hmem
    rw [List.map_cons, List.nodup_cons] at hnodup
    rw [List.map_cons, List.mem_cons] at hmem
    rw [List.map_cons, sumBy_cons, sumBy_cons]
    rcases hmem with heq | hmem
    · rw [bumpAmount, if_pos heq.symm]
      simp only []
      have hrest : t.category ∉ acc.map CatAcc.name := heq ▸ hnodup.1
      rw [map_bumpAmount_of_not_mem hrest]
      ring
    · rw [bumpAmount_of_ne (fun hc => hnodup.1 (hc ▸ hmem)), ih hnodup.2 hmem]
      ring

theorem sum_amount_insertedCategories (ts : List Transaction) :
    sumBy CatAcc.amount (insertedCategories ts) = sumBy (fun t => |t.amount|) ts := by
  induction ts using List.reverseRecOn with
  | nil => rfl
  | append_singleton ts t ih =>
    rw [insertedCategories_append, sumBy_append, sumBy_singleton]
    by_cases h : t.category ∈ (insertedCategories ts).map CatAcc.name
    · rw [insertSpendTransaction_of_mem h,
        sumBy_amount_map_bumpAmount (nodup_map_name_insertedCategories ts) h, ih]
    · rw [insertSpendTransaction_of_not_mem h, sumBy_append, sumBy_singleton, ih]

/-! Facts about `arrayIndexOf`, the `Object.values` enumeration order, and the
resulting `buildCategories`. -/

theorem arrayIndexOf_eq_some {s : String} {i : ℕ} (h : arrayIndexOf s = some i) :
    toString i = s ∧ i < 4294967295 := by
  unfold arrayIndexOf at h
  by_cases hc : toString (digitsVal s.data) = s ∧ digitsVal s.data < 4294967295
  · rw [if_pos hc] at h
    obtain rfl := Option.some.inj h
    exact hc
  · rw [if_neg hc] at h
    exact absurd h (by simp)

theorem arrayIndexOf_inj {c d : String} {i : ℕ}
    (hc : arrayIndexOf c = some i) (hd : arrayIndexOf d = some i) : c = d := by
  rw [← (arrayIndexOf_eq_some hc).1, ← (arrayIndexOf_eq_some hd).1]

theorem jsKeyOrder_of_indices {ts : List Transaction} {c d : String} {i j : ℕ}
    (hc : arrayIndexOf c = some i) (hd : arrayIndexOf d = some j) (h : i < j) :
    jsKeyOrder ts c d := by
  unfold jsKeyOrder
  rw [hc, hd]
  exact h

theorem jsKeyOrder_of_index_left {ts : List Transaction} {c d : String} {i : ℕ}
    (hc : arrayIndexOf c = some i) (hd : arrayIndexOf d = none) :
    jsKeyOrder ts c d := by
  unfold jsKeyOrder
  rw [hc, hd]
  exact trivial

theorem jsKeyOrder_of_no_index {ts : List Transaction} {c d : String}
    (hc : arrayIndexOf c = none) (hd : arrayIndexOf d = none)
    (h : firstIdxOfCategory ts c < firstIdxOfCategory ts d) :
    jsKeyOrder ts c d := by
  unfold jsKeyOrder
  rw [hc, hd]
  exact h

theorem objectValuesOrder_perm (acc : List CatAcc) :
    List.Perm (objectValuesOrder acc) acc := by
  unfold objectValuesOrder
  refine List.Perm.trans ((List.perm_insertionSort byIndexAsc _).append_right _) ?_
  have h : acc.filter (fun c => (arrayIndexOf c.name).isNone) =
      acc.filter (fun c => !(arrayIndexOf c.name).isSome) :=
    List.filter_congr fun c _ => by cases arrayIndexOf c.name <;> rfl
  rw [h]
  exact List.filter_append_perm _ acc

theorem buildCategories_perm (ts : List Transaction) :
    List.Perm (buildCategories ts) (insertedCategories ts) :=
  objectValuesOrder_perm _

theorem mem_map_name_buildCategories (ts : List Transaction) (c : String) :
    c ∈ (buildCategories ts).map CatAcc.name ↔ c ∈ ts.map Transaction.category :=
  ((buildCategories_perm ts).map CatAcc.name).mem_iff.trans
    (mem_map_name_insertedCategories ts c)

theorem nodup_map_name_buildCategories (ts : List Transaction) :
    ((buildCategories ts).map CatAcc.name).Nodup :=
  ((buildCategories_perm ts).map CatAcc.name).nodup_iff.mpr
    (nodup_map_name_insertedCategories ts)

theorem amount_buildCategories (ts : List Transaction) :
    ∀ e ∈ buildCategories ts, e.amount = categorySpend ts e.name :=
  fun e he => amount_insertedCategories ts e ((buildCategories_perm ts).mem_iff.mp he)

theorem emoji_buildCategories (ts : List Transaction) :
    ∀ e ∈ buildCategories ts,
      ∃ x, ts.find? (fun x => decide (x.category = e.name)) = some x ∧ e.emoji = x.emoji :=
  fun e he => emoji_insertedCategories ts e ((buildCategories_perm ts).mem_iff.mp he)

theorem sum_amount_buildCategories (ts : List Transaction) :
    sumBy CatAcc.amount (buildCategories ts) = sumBy (fun t => |t.amount|) ts := by
  rw [sumBy_eq_sum_map, ((buildCategories_perm ts).map CatAcc.amount).sum_eq,
    ← sumBy_eq_sum_map]
  exact sum_amount_insertedCategories ts

theorem pairwise_jsKeyOrder_buildCategories (ts : List Transaction) :
    (buildCategories ts).Pairwise (fun a b => jsKeyOrder ts a.name b.name) := by
  unfold buildCategories objectValuesOrder
  rw [List.pairwise_append]
  refine ⟨?_, ?_, ?_⟩
  · have hpermF := List.perm_insertionSort byIndexAsc
      ((insertedCategories ts).filter fun c => (arrayIndexOf c.name).isSome)
    have hsorted := List.sorted_insertionSort byIndexAsc
      ((insertedCategories ts).filter fun c => (arrayIndexOf c.name).isSome)
    have hsubmap := (List.filter_sublist
      (p := fun c => (arrayIndexOf c.name).isSome) (insertedCategories ts)).map CatAcc.name
    have hnodupF := (nodup_map_name_insertedCategories ts).sublist hsubmap
    have hnodupS := ((hpermF.map CatAcc.name).nodup_iff).mpr hnodupF
    have hneS : (((insertedCategories ts).filter
        fun c => (arrayIndexOf c.name).isSome).insertionSort byIndexAsc).Pairwise
        (fun a b => a.name ≠ b.name) := by
      have h1 : ((((insertedCategories ts).filter
          fun c => (arrayIndexOf c.name).isSome).insertionSort byIndexAsc).map
            CatAcc.name).Pairwise (fun a b => a ≠ b) := hnodupS
      exact List.pairwise_map.mp h1
    refine (hsorted.and hneS).imp_of_mem ?_
    intro a b ha hb hab
    obtain ⟨i, hi⟩ := Option.isSome_iff_exists.mp
      (List.mem_filter.mp (hpermF.mem_iff.mp ha)).2
    obtain ⟨j, hj⟩ := Option.isSome_iff_exists.mp
      (List.mem_filter.mp (hpermF.mem_iff.mp hb)).2
    have hij : i ≤ j := by
      have h2 := hab.1
      unfold byIndexAsc at h2
      rw [hi, hj] at h2
      simpa using h2
    have hne : i ≠ j := fun hij' => hab.2 (arrayIndexOf_inj hi (hij' ▸ hj))
    exact jsKeyOrder_of_indices hi hj (lt_of_le_of_ne hij hne)
  · have hsubG := List.filter_sublist
      (p := fun c => (arrayIndexOf c.name).isNone) (insertedCategories ts)
    have hpwG := List.Pairwise.sublist hsubG (pairwise_firstIdx_insertedCategories ts)
    refine hpwG.imp_of_mem ?_
    intro a b ha hb hr
    exact jsKeyOrder_of_no_index
      (Option.isNone_iff_eq_none.mp (List.mem_filter.mp ha).2)
      (Option.isNone_iff_eq_none.mp (List.mem_filter.mp hb).2) hr
  · intro a ha b hb
    obtain ⟨i, hi⟩ := Option.isSome_iff_exists.mp
      (List.mem_filter.mp ((List.perm_insertionSort byIndexAsc _).mem_iff.mp ha)).2
    exact jsKeyOrder_of_index_left hi
      (Option.isNone_iff_eq_none.mp (List.mem_filter.mp hb).2)

/-! The explicit form of a successful run of the Recalculator. -/

theorem calculateFinancialMetrics_some {p : PeriodData} {l : List Transaction}
    (h : p.transactions = some l) :
    calculateFinancialMetrics (some p) = some
      { period := p.period
        currency := p.currency
        transactions := l
        totalSpend := sumBy (fun t => |t.amount|) (spendOf l)
        formattedTotal := p.currency ++ toFixed2 (sumBy (fun t => |t.amount|) (spendOf l))
        categoryBreakdown := ((buildCategories (spendOf l)).map
          (finalizeCategory (sumBy (fun t => |t.amount|) (spendOf l)))).insertionSort byAmountDesc
        subscriptions := ⟨(p.possibleSubscriptions.getD []).length,
          round2 (sumBy (fun c => |c.amount|) (p.possibleSubscriptions.getD [])),
          p.possibleSubscriptions.getD []⟩ } := by
  simp only [calculateFinancialMetrics, h, spendOf]

/-! Generic helper lemmas for pair sublists and rounding. -/

theorem pair_sublist_of_mem {l : List α} {a b : α} (ha : a ∈ l) (hb : b ∈ l) (hne : a ≠ b) :
    List.Sublist [a, b] l ∨ List.Sublist [b, a] l := by
  induction l with
  | nil => cases ha
  | cons x l ih =>
    rcases List.mem_cons.mp ha with rfl | ha'
    · have hb' : b ∈ l := by
        rcases List.mem_cons.mp hb with rfl | hb'
        · exact absurd rfl hne
        · exact hb'
      exact Or.inl ((List.singleton_sublist.mpr hb').cons₂ a)
    · rcases List.mem_cons.mp hb with rfl | hb'
      · exact Or.inr ((List.singleton_sublist.mpr ha').cons₂ b)
      · rcases ih ha' hb' with hs | hs
        · exact Or.inl (hs.cons x)
        · exact Or.inr (hs.cons x)

theorem not_pair_sublist_both {l : List α} {a b : α} (hnd : l.Nodup) (hne : a ≠ b) :
    List.Sublist [a, b] l → List.Sublist [b, a] l → False := by
  induction l with
  | nil => intro hab _; cases hab
  | cons x l ih =>
    intro hab hba
    rw [List.nodup_cons] at hnd
    cases hab with
    | cons _ hab' =>
      cases hba with
      | cons _ hba' => exact ih hnd.2 hab' hba'
      | cons₂ _ hba' =>
        exact hnd.1 (hab'.subset (List.mem_cons_of_mem a (List.mem_singleton.mpr rfl)))
    | cons₂ _ hab' =>
      cases hba with
      | cons _ hba' =>
        exact hnd.1 (hba'.subset (List.mem_cons_of_mem b (List.mem_singleton.mpr rfl)))
      | cons₂ _ hba' => exact hne rfl

theorem round2_nonneg {x : ℚ} (h : 0 ≤ x) : 0 ≤ round2 x := by
  unfold round2
  apply div_nonneg _ (by norm_num)
  have : (0 : ℤ) ≤ ⌊x * 100 + 1 / 2⌋ := by
    rw [Int.floor_nonneg]
    positivity
  exact_mod_cast this

theorem abs_round2_sub_le (y : ℚ) : |round2 y - y| ≤ 1 / 200 := by
  unfold round2
  have h1 : ((⌊y * 100 + 1 / 2⌋ : ℤ) : ℚ) ≤ y * 100 + 1 / 2 := Int.floor_le _
  have h2 : y * 100 + 1 / 2 - 1 < ((⌊y * 100 + 1 / 2⌋ : ℤ) : ℚ) := Int.sub_one_lt_floor _
  rw [abs_le]
  constructor <;> [linarith; linarith]

theorem round2_eq_self_of_cent {x : ℚ} (h : ∃ k : ℤ, x = (k : ℚ) / 100) : round2 x = x := by
  obtain ⟨k, rfl⟩ := h
  unfold round2
  rw [div_mul_cancel₀ _ (by norm_num : (100 : ℚ) ≠ 0), Int.floor_int_add]
  norm_num

theorem round2_le_hundred {y : ℚ} (h : y ≤ 100) : round2 y ≤ 100 := by
  unfold round2
  have h1 : (⌊y * 100 + 1 / 2⌋ : ℤ) ≤ 10000 := by
    have h2 := Int.floor_le_floor (α := ℚ) (show y * 100 + 1 / 2 ≤ 20001 / 2 by linarith)
    have h3 : ⌊(20001 : ℚ) / 2⌋ = 10000 := by norm_num
    rw [h3] at h2
    exact h2
  have h4 : ((⌊y * 100 + 1 / 2⌋ : ℤ) : ℚ) ≤ 10000 := by exact_mod_cast h1
  linarith

theorem cent_abs {x : ℚ} (h : ∃ k : ℤ, x = (k : ℚ) / 100) : ∃ k : ℤ, |x| = (k : ℚ) / 100 := by
  obtain ⟨k, rfl⟩ := h
  refine ⟨|k|, ?_⟩
  rw [Int.cast_abs, abs_div]
  norm_num

theorem cent_sumBy {f : α → ℚ} {l : List α} (h : ∀ a ∈ l, ∃ k : ℤ, f a = (k : ℚ) / 100) :
    ∃ k : ℤ, sumBy f l = (k : ℚ) / 100 := by
  induction l with
  | nil => exact ⟨0, by simp [sumBy_nil]⟩
  | cons a l ih =>
    obtain ⟨k1, hk1⟩ := h a (List.mem_cons_self a l)
    obtain ⟨k2, hk2⟩ := ih fun x hx => h x (List.mem_cons_of_mem a hx)
    refine ⟨k1 + k2, ?_⟩
    rw [sumBy_cons, hk1, hk2]
    push_cast
    ring

theorem sumBy_map (f : β → ℚ) (g : α → β) (l : List α) :
    sumBy f (l.map g) = sumBy (fun a => f (g a)) l := by
  rw [sumBy_eq_sum_map, sumBy_eq_sum_map, List.map_map]
  rfl

theorem sumBy_congr {f g : α → ℚ} {l : List α} (h : ∀ a ∈ l, f a = g a) :
    sumBy f l = sumBy g l := by
  rw [sumBy_eq_sum_map, sumBy_eq_sum_map, List.map_congr_left h]

theorem abs_sumBy_sub_le {f g : α → ℚ} {ε : ℚ} :
    ∀ {l : List α}, (∀ a ∈ l, |f a - g a| ≤ ε) →
      |sumBy f l - sumBy g l| ≤ l.length * ε := by
  intro l
  induction l with
  | nil =>
    intro _
    simp [sumBy_nil]
  | cons a l ih =>
    intro h
    have h1 := h a (List.mem_cons_self a l)
    have h2 := ih fun x hx => h x (List.mem_cons_of_mem a hx)
    have h3 := abs_add (f a - g a) (sumBy f l - sumBy g l)
    have h4 : f a + sumBy f l - (g a + sumBy g l) =
        f a - g a + (sumBy f l - sumBy g l) := by ring
    rw [sumBy_cons, sumBy_cons, h4, List.length_cons]
    have h5 : ((l.length + 1 : ℕ) : ℚ) * ε = (l.length : ℚ) * ε + ε := by
      push_cast
      ring
    rw [h5]
    linarith

theorem sumBy_div_mul (f : α → ℚ) (T : ℚ) (l : List α) :
    sumBy (fun a => f a / T * 100) l = sumBy f l / T * 100 := by
  induction l with
  | nil =>
    rw [sumBy_nil, sumBy_nil, zero_div, zero_mul]
  | cons a l ih =>
    rw [sumBy_cons, sumBy_cons, ih]
    ring

/-! The claims. -/

/-- C1: `calculateFinancialMetrics` returns `null` exactly when `periodData` is
absent or its `transactions` field is missing/null/not a sequence (modelled by
`Option.bind` being `none`); for every `periodData` whose `transactions` is a
sequence, it returns a non-null `PeriodSummary`. -/
theorem compute_none_iff_transactions_none (pd : Option PeriodData) :
    calculateFinancialMetrics pd = none ↔ pd.bind PeriodData.transactions = none := by
  cases pd with
  | none => simp [calculateFinancialMetrics]
  | some p =>
    cases h : p.transactions with
    | none => simp [calculateFinancialMetrics, h]
    | some l => simp [calculateFinancialMetrics_some h, h]

/-- C4: for every input whose `transactions` field is a sequence the
Recalculator returns a summary (total function, no run-time fault), and on the
empty transaction list it returns `totalSpend = 0` with an empty
`categoryBreakdown`, so no percentage (hence no `NaN`/infinity) is ever
produced there. -/
theorem compute_defined_on_sequence (p : PeriodData) (l : List Transaction)
    (h : p.transactions = some l) :
    (∃ s, calculateFinancialMetrics (some p) = some s) ∧
    (l = [] → ∃ s, calculateFinancialMetrics (some p) = some s ∧
      s.totalSpend = 0 ∧ s.categoryBreakdown = []) := by
  refine ⟨⟨_, calculateFinancialMetrics_some h⟩, ?_⟩
  rintro rfl
  exact ⟨_, calculateFinancialMetrics_some h, rfl, rfl⟩

/-- Witness for C4 at the concrete input with an empty transaction list. -/
theorem compute_defined_on_sequence_witness :
    (∃ s, calculateFinancialMetrics (some ⟨"p", "$", some [], none⟩) = some s) ∧
    (([] : List Transaction) = [] →
      ∃ s, calculateFinancialMetrics (some ⟨"p", "$", some [], none⟩) = some s ∧
        s.totalSpend = 0 ∧ s.categoryBreakdown = []) :=
  compute_defined_on_sequence ⟨"p", "$", some [], none⟩ [] rfl

/-- C10: when no transaction has a negative amount, the returned
`categoryBreakdown` is empty (and `totalSpend` is `0`), so the percentage
division by `totalSpend` is never executed with a zero divisor. -/
theorem breakdown_empty_without_spend (p : PeriodData) (l : List Transaction)
    (s : PeriodSummary) (h : p.transactions = some l)
    (hpos : ∀ t ∈ l, ¬t.amount < 0)
    (hs : calculateFinancialMetrics (some p) = some s) :
    s.categoryBreakdown = [] ∧ s.totalSpend = 0 := by
  rw [calculateFinancialMetrics_some h] at hs
  obtain rfl := (Option.some.inj hs).symm
  have hsp : spendOf l = [] := by
    rw [spendOf, List.filter_eq_nil_iff]
    intro t ht hc
    simp only [decide_eq_true_eq] at hc
    exact hpos t ht hc
  rw [hsp]
  exact ⟨rfl, rfl⟩

/-- Witness for C10 at a concrete input whose only transaction is positive. -/
theorem breakdown_empty_without_spend_witness :
    calculateFinancialMetrics (some ⟨"p", "$", some [⟨"d", "x", 5, "A", "e"⟩], none⟩) =
      some ⟨"p", "$", [⟨"d", "x", 5, "A", "e"⟩], 0, "$0.00", [], ⟨0, 0, []⟩⟩ ∧
    (⟨"p", "$", [⟨"d", "x", 5, "A", "e"⟩], 0, "$0.00", [], ⟨0, 0, []⟩⟩ :
      PeriodSummary).categoryBreakdown = [] ∧
    (⟨"p", "$", [⟨"d", "x", 5, "A", "e"⟩], 0, "$0.00", [], ⟨0, 0, []⟩⟩ :
      PeriodSummary).totalSpend = 0 := by
  have h1 : calculateFinancialMetrics (some ⟨"p", "$", some [⟨"d", "x", 5, "A", "e"⟩], none⟩) =
      some ⟨"p", "$", [⟨"d", "x", 5, "A", "e"⟩], 0, "$0.00", [], ⟨0, 0, []⟩⟩ := by
    norm_num [calculateFinancialMetrics, buildCategories, sumBy, round2, toFixed2,
      List.insertionSort]
    rfl
  have h2 := breakdown_empty_without_spend _ _ _ rfl
    (by
      intro t ht
      simp only [List.mem_singleton] at ht
      subst ht
      norm_num) h1
  exact ⟨h1, h2.1, h2.2⟩

/-- C2: `totalSpend` is the sum of `abs(amount)` over exactly the transactions
with `amount < 0`; transactions with `amount ≥ 0` contribute neither to
`totalSpend` nor to `categoryBreakdown` (running the Recalculator on the
spend-filtered list yields the same `totalSpend` and `categoryBreakdown`). -/
theorem totalSpend_ignores_nonnegative (p : PeriodData) (l : List Transaction)
    (s sneg : PeriodSummary) (h : p.transactions = some l)
    (hs : calculateFinancialMetrics (some p) = some s)
    (hneg : calculateFinancialMetrics
      (some { p with transactions := some (spendOf l) }) = some sneg) :
    s.totalSpend = sumBy (fun t => |t.amount|) (spendOf l) ∧
    sneg.totalSpend = s.totalSpend ∧ sneg.categoryBreakdown = s.categoryBreakdown := by
  rw [calculateFinancialMetrics_some h] at hs
  rw [calculateFinancialMetrics_some
    (show ({ p with transactions := some (spendOf l) } : PeriodData).transactions =
      some (spendOf l) from rfl)] at hneg
  obtain rfl := (Option.some.inj hs).symm
  obtain rfl := (Option.some.inj hneg).symm
  have hss : spendOf (spendOf l) = spendOf l := by
    unfold spendOf
    rw [List.filter_filter]
    exact List.filter_congr fun t _ => Bool.and_self _
  refine ⟨rfl, ?_, ?_⟩ <;> rw [hss]

/-- Witness for C2 at a concrete input mixing a spend and an income
transaction. -/
theorem totalSpend_ignores_nonnegative_witness :
    ∃ s sneg,
      calculateFinancialMetrics (some ⟨"p", "$",
        some [⟨"d", "a", -10, "A", "e"⟩, ⟨"d", "b", 20, "B", "f"⟩], none⟩) = some s ∧
      calculateFinancialMetrics (some ⟨"p", "$",
        some (spendOf [⟨"d", "a", -10, "A", "e"⟩, ⟨"d", "b", 20, "B", "f"⟩]), none⟩) = some sneg ∧
      s.totalSpend = 10 ∧ sneg.totalSpend = s.totalSpend ∧
      sneg.categoryBreakdown = s.categoryBreakdown := by
  have h1 : calculateFinancialMetrics (some ⟨"p", "$",
      some [⟨"d", "a", -10, "A", "e"⟩, ⟨"d", "b", 20, "B", "f"⟩], none⟩) =
      some ⟨"p", "$", [⟨"d", "a", -10, "A", "e"⟩, ⟨"d", "b", 20, "B", "f"⟩], 10, "$10.00",
        [⟨"A", 10, 100, "e"⟩], ⟨0, 0, []⟩⟩ := by
    norm_num [calculateFinancialMetrics, buildCategories, insertSpendTransaction, bumpAmount,
      finalizeCategory, byAmountDesc, round2, toFixed2, sumBy, List.insertionSort, abs_of_nonneg,
      abs_neg]
    rfl
  have h2 : calculateFinancialMetrics (some ⟨"p", "$",
      some (spendOf [⟨"d", "a", -10, "A", "e"⟩, ⟨"d", "b", 20, "B", "f"⟩]), none⟩) =
      some ⟨"p", "$", [⟨"d", "a", -10, "A", "e"⟩], 10, "$10.00",
        [⟨"A", 10, 100, "e"⟩], ⟨0, 0, []⟩⟩ := by
    norm_num [calculateFinancialMetrics, buildCategories, insertSpendTransaction, bumpAmount,
      finalizeCategory, byAmountDesc, round2, toFixed2, sumBy, List.insertionSort, abs_of_nonneg,
      abs_neg, spendOf]
    rfl
  have h3 := totalSpend_ignores_nonnegative _ _ _ _ rfl h1 h2
  exact ⟨_, _, h1, h2, rfl, h3.2.1, h3.2.2⟩

/-- C6: the `subscriptions` object has `count` the number of candidates (zero
when the field is absent), `total` the rounded sum of `abs(amount)` over the
candidates, and `list` the candidates unchanged; the `possibleSubscriptions`
field itself is absent from `PeriodSummary`. -/
theorem subscriptions_spec (p : PeriodData) (l : List Transaction) (s : PeriodSummary)
    (h : p.transactions = some l)
    (hs : calculateFinancialMetrics (some p) = some s) :
    s.subscriptions.count = (p.possibleSubscriptions.getD []).length ∧
    s.subscriptions.total =
      round2 (sumBy (fun c => |c.amount|) (p.possibleSubscriptions.getD [])) ∧
    s.subscriptions.list = p.possibleSubscriptions.getD [] ∧
    (p.possibleSubscriptions = none →
      s.subscriptions.count = 0 ∧ s.subscriptions.list = []) := by
  rw [calculateFinancialMetrics_some h] at hs
  obtain rfl := (Option.some.inj hs).symm
  refine ⟨rfl, rfl, rfl, ?_⟩
  intro hn
  rw [hn]
  exact ⟨rfl, rfl⟩

/-- Witness for C6 at the spec's Netflix/Spotify example
(`total = 25.49 = 2549/100`). -/
theorem subscriptions_spec_witness :
    ∃ s, calculateFinancialMetrics (some ⟨"p", "$", some [],
        some [⟨"Netflix", -(31 / 2), "n"⟩, ⟨"Spotify", -(999 / 100), "s"⟩]⟩) = some s ∧
      s.subscriptions.count = 2 ∧ s.subscriptions.total = 2549 / 100 ∧
      s.subscriptions.list = [⟨"Netflix", -(31 / 2), "n"⟩, ⟨"Spotify", -(999 / 100), "s"⟩] := by
  have h1 : calculateFinancialMetrics (some ⟨"p", "$", some [],
      some [⟨"Netflix", -(31 / 2), "n"⟩, ⟨"Spotify", -(999 / 100), "s"⟩]⟩) =
      some ⟨"p", "$", [], 0, "$0.00", [],
        ⟨2, 2549 / 100, [⟨"Netflix", -(31 / 2), "n"⟩, ⟨"Spotify", -(999 / 100), "s"⟩]⟩⟩ := by
    norm_num [calculateFinancialMetrics, buildCategories, round2, toFixed2, sumBy,
      List.insertionSort, abs_of_nonneg, abs_neg]
    rfl
  have h2 := subscriptions_spec _ _ _ rfl h1
  exact ⟨_, h1, h2.1, by rw [h2.2.1]; norm_num [sumBy_cons, sumBy_nil, round2, abs_of_nonneg,
    abs_neg], h2.2.2.1⟩

/-- C3: `categoryBreakdown` has exactly one entry per distinct category among
the spend transactions; each entry's `amount` is the rounded per-category sum
of `abs(amount)`, its `percentage` is `round2(amount / totalSpend * 100)`
computed from the already-rounded amount, and its `emoji` comes from the first
spend transaction of that category in input order. -/
theorem categoryBreakdown_entries_spec (p : PeriodData) (l : List Transaction)
    (s : PeriodSummary) (h : p.transactions = some l)
    (hs : calculateFinancialMetrics (some p) = some s) :
    (s.categoryBreakdown.map CategoryAggregate.name).Nodup ∧
    (∀ c : String, c ∈ s.categoryBreakdown.map CategoryAggregate.name ↔
      c ∈ (spendOf l).map Transaction.category) ∧
    (∀ e ∈ s.categoryBreakdown,
      e.amount = round2 (categorySpend (spendOf l) e.name) ∧
      e.percentage = round2 (e.amount / sumBy (fun t => |t.amount|) (spendOf l) * 100) ∧
      ∃ x, (spendOf l).find? (fun t => decide (t.category = e.name)) = some x ∧
        e.emoji = x.emoji) := by
  rw [calculateFinancialMetrics_some h] at hs
  obtain rfl := (Option.some.inj hs).symm
  have hperm := List.perm_insertionSort byAmountDesc
    ((buildCategories (spendOf l)).map
      (finalizeCategory (sumBy (fun t => |t.amount|) (spendOf l))))
  have hnames : ((buildCategories (spendOf l)).map
      (finalizeCategory (sumBy (fun t => |t.amount|) (spendOf l)))).map CategoryAggregate.name =
      (buildCategories (spendOf l)).map CatAcc.name := by
    rw [List.map_map]
    exact List.map_congr_left fun c _ => rfl
  refine ⟨?_, ?_, ?_⟩
  · refine ((hperm.map CategoryAggregate.name).nodup_iff).mpr ?_
    rw [hnames]
    exact nodup_map_name_buildCategories (spendOf l)
  · intro c
    have h1 := (hperm.map CategoryAggregate.name).mem_iff (a := c)
    rw [hnames] at h1
    exact h1.trans (mem_map_name_buildCategories (spendOf l) c)
  · intro e he
    have he' := hperm.mem_iff.mp he
    obtain ⟨c0, hc0, rfl⟩ := List.mem_map.mp he'
    refine ⟨?_, rfl, ?_⟩
    · show round2 c0.amount = round2 (categorySpend (spendOf l) c0.name)
      rw [amount_buildCategories (spendOf l) c0 hc0]
    · obtain ⟨x, hx, hex⟩ := emoji_buildCategories (spendOf l) c0 hc0
      exact ⟨x, hx, hex⟩

/-- Witness for C3 at a concrete input with two spend categories and one
income transaction. -/
theorem categoryBreakdown_entries_spec_witness :
    ∃ s, calculateFinancialMetrics (some ⟨"p", "$",
        some [⟨"d", "a", -10, "A", "e1"⟩, ⟨"d", "b", -5, "B", "e2"⟩, ⟨"d", "c", 7, "C", "e3"⟩],
        none⟩) = some s ∧
      ((s.categoryBreakdown.map CategoryAggregate.name).Nodup ∧
      (∀ c : String, c ∈ s.categoryBreakdown.map CategoryAggregate.name ↔
        c ∈ (spendOf [⟨"d", "a", -10, "A", "e1"⟩, ⟨"d", "b", -5, "B", "e2"⟩,
          ⟨"d", "c", 7, "C", "e3"⟩]).map Transaction.category) ∧
      (∀ e ∈ s.categoryBreakdown,
        e.amount = round2 (categorySpend (spendOf [⟨"d", "a", -10, "A", "e1"⟩,
          ⟨"d", "b", -5, "B", "e2"⟩, ⟨"d", "c", 7, "C", "e3"⟩]) e.name) ∧
        e.percentage = round2 (e.amount / sumBy (fun t => |t.amount|)
          (spendOf [⟨"d", "a", -10, "A", "e1"⟩, ⟨"d", "b", -5, "B", "e2"⟩,
            ⟨"d", "c", 7, "C", "e3"⟩]) * 100) ∧
        ∃ x, (spendOf [⟨"d", "a", -10, "A", "e1"⟩, ⟨"d", "b", -5, "B", "e2"⟩,
            ⟨"d", "c", 7, "C", "e3"⟩]).find? (fun t => decide (t.category = e.name)) = some x ∧
          e.emoji = x.emoji)) := by
  have h1 : calculateFinancialMetrics (some ⟨"p", "$",
      some [⟨"d", "a", -10, "A", "e1"⟩, ⟨"d", "b", -5, "B", "e2"⟩, ⟨"d", "c", 7, "C", "e3"⟩],
      none⟩) =
      some ⟨"p", "$",
        [⟨"d", "a", -10, "A", "e1"⟩, ⟨"d", "b", -5, "B", "e2"⟩, ⟨"d", "c", 7, "C", "e3"⟩],
        15, "$15.00",
        [⟨"A", 10, 6667 / 100, "e1"⟩, ⟨"B", 5, 3333 / 100, "e2"⟩], ⟨0, 0, []⟩⟩ := by
    norm_num +decide [calculateFinancialMetrics, buildCategories, insertSpendTransaction,
      bumpAmount, finalizeCategory, byAmountDesc, round2, toFixed2, sumBy, List.insertionSort,
      List.orderedInsert, abs_of_nonneg, abs_neg]
  exact ⟨_, h1, categoryBreakdown_entries_spec _ _ _ rfl h1⟩

/-- Counterexample for C5 as stated: with input
`[A +5, B -5, A -5]` the spend transactions are `[B, A]`, so the tied
breakdown entries come out in the order `B, A`, while the categories' first
occurrences in the full input sequence are `A` (index 0) before `B`
(index 1). -/
theorem categoryBreakdown_tie_order_counterexample :
    calculateFinancialMetrics (some ⟨"p", "$",
      some [⟨"d", "a", 5, "A", "eA"⟩, ⟨"d", "b", -5, "B", "eB"⟩, ⟨"d", "c", -5, "A", "eA"⟩],
      none⟩) =
    some ⟨"p", "$",
      [⟨"d", "a", 5, "A", "eA"⟩, ⟨"d", "b", -5, "B", "eB"⟩, ⟨"d", "c", -5, "A", "eA"⟩],
      10, "$10.00",
      [⟨"B", 5, 50, "eB"⟩, ⟨"A", 5, 50, "eA"⟩], ⟨0, 0, []⟩⟩ ∧
    (⟨"B", 5, 50, "eB"⟩ : CategoryAggregate).amount =
      (⟨"A", 5, 50, "eA"⟩ : CategoryAggregate).amount ∧
    ¬(firstIdxOfCategory
        [⟨"d", "a", 5, "A", "eA"⟩, ⟨"d", "b", -5, "B", "eB"⟩, ⟨"d", "c", -5, "A", "eA"⟩] "B" <
      firstIdxOfCategory
        [⟨"d", "a", 5, "A", "eA"⟩, ⟨"d", "b", -5, "B", "eB"⟩, ⟨"d", "c", -5, "A", "eA"⟩] "A") := by
  refine ⟨?_, rfl, ?_⟩
  · norm_num +decide [calculateFinancialMetrics, buildCategories, insertedCategories,
      objectValuesOrder, arrayIndexOf, digitsVal, byIndexAsc, insertSpendTransaction,
      bumpAmount, finalizeCategory, byAmountDesc, round2, toFixed2, sumBy, List.insertionSort,
      List.orderedInsert, abs_of_nonneg, abs_neg]
  · decide

/-- C5 (amended): `categoryBreakdown` is sorted descending by `amount`, and for
entries with equal `amount` the output order is the order in which
`Object.values` enumerates their category keys: categories whose names are
canonical array-index numerals (value below `2^32 - 1`) come first in
ascending numeric order, and all other categories follow in order of their
first occurrence among the spend transactions (`amount < 0`) — not among all
input transactions, since the grouping object is built from the spend-filtered
list only. -/
theorem categoryBreakdown_sorted_stable (p : PeriodData) (l : List Transaction)
    (s : PeriodSummary) (h : p.transactions = some l)
    (hs : calculateFinancialMetrics (some p) = some s) :
    s.categoryBreakdown.Pairwise byAmountDesc ∧
    (∀ a b : CategoryAggregate, List.Sublist [a, b] s.categoryBreakdown →
      a.amount = b.amount → jsKeyOrder (spendOf l) a.name b.name) := by
  rw [calculateFinancialMetrics_some h] at hs
  obtain rfl := (Option.some.inj hs).symm
  constructor
  · exact List.sorted_insertionSort byAmountDesc _
  · intro a b hab heq
    have hperm := List.perm_insertionSort byAmountDesc
      ((buildCategories (spendOf l)).map
        (finalizeCategory (sumBy (fun t => |t.amount|) (spendOf l))))
    have hnames : (((buildCategories (spendOf l)).map
        (finalizeCategory (sumBy (fun t => |t.amount|) (spendOf l)))).map
          CategoryAggregate.name) = (buildCategories (spendOf l)).map CatAcc.name := by
      rw [List.map_map]
      exact List.map_congr_left fun c _ => rfl
    have hndnames : ((((buildCategories (spendOf l)).map
        (finalizeCategory (sumBy (fun t => |t.amount|) (spendOf l)))).map
          CategoryAggregate.name)).Nodup := by
      rw [hnames]
      exact nodup_map_name_buildCategories (spendOf l)
    have hnd := List.Nodup.of_map CategoryAggregate.name hndnames
    have hndS := hperm.nodup_iff.mpr hnd
    have hndSnames := ((hperm.map CategoryAggregate.name).nodup_iff).mpr hndnames
    have hane : a.name ≠ b.name := by
      have hsub := hab.map CategoryAggregate.name
      have hpairnd := hndSnames.sublist hsub
      simp only [List.map_cons, List.map_nil] at hpairnd
      rw [List.nodup_cons] at hpairnd
      exact fun hx => hpairnd.1 (by rw [hx]; exact List.mem_singleton.mpr rfl)
    have hne : a ≠ b := fun hx => hane (hx ▸ rfl)
    have hamem := hperm.mem_iff.mp (hab.subset (List.mem_cons_self a [b]))
    have hbmem := hperm.mem_iff.mp
      (hab.subset (List.mem_cons_of_mem a (List.mem_singleton.mpr rfl)))
    have hpm : (((buildCategories (spendOf l)).map
        (finalizeCategory (sumBy (fun t => |t.amount|) (spendOf l))))).Pairwise
        (fun x y => jsKeyOrder (spendOf l) x.name y.name) := by
      refine List.pairwise_map.mpr ?_
      exact pairwise_jsKeyOrder_buildCategories (spendOf l)
    rcases pair_sublist_of_mem hamem hbmem hne with hpair | hpair
    · have hp2 : List.Pairwise (fun x y => jsKeyOrder (spendOf l) x.name y.name)
          [a, b] := List.Pairwise.sublist hpair hpm
      exact (List.pairwise_pair (R := fun x y : CategoryAggregate =>
        jsKeyOrder (spendOf l) x.name y.name)).mp hp2
    · exfalso
      have hBA := List.pair_sublist_insertionSort
        (show byAmountDesc b a from le_of_eq heq) hpair
      exact not_pair_sublist_both hndS hne hab hBA

/-- Witness for the amended C5 at a concrete input with two equal-amount spend
categories whose names are array-index numerals in reversed numeric order, so
the enumeration-order tie-break is exercised on its numeric branch. -/
theorem categoryBreakdown_sorted_stable_witness :
    ∃ s, calculateFinancialMetrics (some ⟨"p", "$",
        some [⟨"d", "a", -5, "10", "e1"⟩, ⟨"d", "b", -5, "2", "e2"⟩], none⟩) = some s ∧
      (s.categoryBreakdown.Pairwise byAmountDesc ∧
      (∀ a b : CategoryAggregate, List.Sublist [a, b] s.categoryBreakdown →
        a.amount = b.amount →
        jsKeyOrder (spendOf [⟨"d", "a", -5, "10", "e1"⟩, ⟨"d", "b", -5, "2", "e2"⟩])
          a.name b.name)) := by
  have h1 : calculateFinancialMetrics (some ⟨"p", "$",
      some [⟨"d", "a", -5, "10", "e1"⟩, ⟨"d", "b", -5, "2", "e2"⟩], none⟩) =
      some ⟨"p", "$", [⟨"d", "a", -5, "10", "e1"⟩, ⟨"d", "b", -5, "2", "e2"⟩], 10, "$10.00",
        [⟨"2", 5, 50, "e2"⟩, ⟨"10", 5, 50, "e1"⟩], ⟨0, 0, []⟩⟩ := by
    norm_num +decide [calculateFinancialMetrics, buildCategories, insertedCategories,
      objectValuesOrder, arrayIndexOf, digitsVal, byIndexAsc, insertSpendTransaction,
      bumpAmount, finalizeCategory, byAmountDesc, round2, toFixed2, sumBy, List.insertionSort,
      List.orderedInsert, abs_of_nonneg, abs_neg]
  exact ⟨_, h1, categoryBreakdown_sorted_stable _ _ _ rfl h1⟩

/-- Counterexample for C8 as stated: a single spend transaction of `-0.006`
gives `totalSpend = 0.006`, a category amount rounded up to `0.01`, and a
percentage of `(0.01 / 0.006) * 100` rounded to `166.67`, which exceeds the
claimed upper bound of 100. -/
theorem percentage_bound_counterexample :
    calculateFinancialMetrics (some ⟨"p", "$", some [⟨"d", "x", -(3 / 500), "A", "e"⟩], none⟩) =
      some ⟨"p", "$", [⟨"d", "x", -(3 / 500), "A", "e"⟩], 3 / 500, "$0.01",
        [⟨"A", 1 / 100, 16667 / 100, "e"⟩], ⟨0, 0, []⟩⟩ ∧
    ¬((⟨"A", 1 / 100, 16667 / 100, "e"⟩ : CategoryAggregate).percentage ≤ 100) := by
  constructor
  · norm_num [calculateFinancialMetrics, buildCategories, insertSpendTransaction, bumpAmount,
      finalizeCategory, byAmountDesc, round2, toFixed2, sumBy, List.insertionSort,
      abs_of_nonneg, abs_neg]
    rfl
  · show ¬((16667 : ℚ) / 100 ≤ 100)
    norm_num

/-- C8 (amended): every `categoryBreakdown` entry has `amount ≥ 0` and
`percentage ≥ 0`; when every transaction amount is an integer multiple of
`0.01` the percentage is also at most 100.  The unconditional upper bound of
the data-model invariant fails (see the counterexample): the category amount
is rounded to 2 decimals before being divided by the unrounded `totalSpend`,
which can push the percentage above 100 for sub-cent amounts. -/
theorem breakdown_entry_bounds (p : PeriodData) (l : List Transaction) (s : PeriodSummary)
    (h : p.transactions = some l)
    (hs : calculateFinancialMetrics (some p) = some s) :
    (∀ e ∈ s.categoryBreakdown, 0 ≤ e.amount ∧ 0 ≤ e.percentage) ∧
    ((∀ t ∈ l, ∃ k : ℤ, t.amount = (k : ℚ) / 100) →
      ∀ e ∈ s.categoryBreakdown, e.percentage ≤ 100) := by
  rw [calculateFinancialMetrics_some h] at hs
  obtain rfl := (Option.some.inj hs).symm
  have hperm := List.perm_insertionSort byAmountDesc
    ((buildCategories (spendOf l)).map
      (finalizeCategory (sumBy (fun t => |t.amount|) (spendOf l))))
  have hTnn : (0 : ℚ) ≤ sumBy (fun t => |t.amount|) (spendOf l) :=
    sumBy_nonneg fun t _ => abs_nonneg _
  constructor
  · intro e he
    obtain ⟨c0, hc0, rfl⟩ := List.mem_map.mp (hperm.mem_iff.mp he)
    have hc0a : c0.amount = categorySpend (spendOf l) c0.name :=
      amount_buildCategories _ c0 hc0
    have hnn : 0 ≤ c0.amount := by
      rw [hc0a]
      exact sumBy_nonneg fun t _ => abs_nonneg _
    refine ⟨round2_nonneg hnn, round2_nonneg ?_⟩
    exact mul_nonneg (div_nonneg (round2_nonneg hnn) hTnn) (by norm_num)
  · intro hcent e he
    obtain ⟨c0, hc0, rfl⟩ := List.mem_map.mp (hperm.mem_iff.mp he)
    have hc0a : c0.amount = categorySpend (spendOf l) c0.name :=
      amount_buildCategories _ c0 hc0
    have hnn : 0 ≤ c0.amount := by
      rw [hc0a]
      exact sumBy_nonneg fun t _ => abs_nonneg _
    have hcentc0 : ∃ k : ℤ, c0.amount = (k : ℚ) / 100 := by
      rw [hc0a]
      refine cent_sumBy ?_
      intro t ht
      exact cent_abs (hcent t (List.mem_of_mem_filter (List.mem_of_mem_filter ht)))
    have hr : round2 c0.amount = c0.amount := round2_eq_self_of_cent hcentc0
    have hle : c0.amount ≤ sumBy (fun t => |t.amount|) (spendOf l) := by
      rw [hc0a]
      exact sumBy_le_sumBy_of_filter (fun t _ => abs_nonneg _) _
    show round2 (round2 c0.amount / sumBy (fun t => |t.amount|) (spendOf l) * 100) ≤ 100
    rw [hr]
    apply round2_le_hundred
    rcases eq_or_lt_of_le hTnn with hT0 | hTpos
    · have h0 : c0.amount = 0 := le_antisymm (hT0 ▸ hle) hnn
      rw [h0, zero_div, zero_mul]
      norm_num
    · rw [div_mul_eq_mul_div, div_le_iff₀ hTpos]
      linarith

/-- Witness for the amended C8 at a concrete cent-amount input. -/
theorem breakdown_entry_bounds_witness :
    ∃ s, calculateFinancialMetrics (some ⟨"p", "$",
        some [⟨"d", "a", -10, "A", "e1"⟩, ⟨"d", "b", -5, "B", "e2"⟩, ⟨"d", "c", 7, "C", "e3"⟩],
        none⟩) = some s ∧
      (∀ e ∈ s.categoryBreakdown, 0 ≤ e.amount ∧ 0 ≤ e.percentage) ∧
      (∀ e ∈ s.categoryBreakdown, e.percentage ≤ 100) := by
  have h1 : calculateFinancialMetrics (some ⟨"p", "$",
      some [⟨"d", "a", -10, "A", "e1"⟩, ⟨"d", "b", -5, "B", "e2"⟩, ⟨"d", "c", 7, "C", "e3"⟩],
      none⟩) =
      some ⟨"p", "$",
        [⟨"d", "a", -10, "A", "e1"⟩, ⟨"d", "b", -5, "B", "e2"⟩, ⟨"d", "c", 7, "C", "e3"⟩],
        15, "$15.00",
        [⟨"A", 10, 6667 / 100, "e1"⟩, ⟨"B", 5, 3333 / 100, "e2"⟩], ⟨0, 0, []⟩⟩ := by
    norm_num +decide [calculateFinancialMetrics, buildCategories, insertSpendTransaction,
      bumpAmount, finalizeCategory, byAmountDesc, round2, toFixed2, sumBy, List.insertionSort,
      List.orderedInsert, abs_of_nonneg, abs_neg]
  have h2 := breakdown_entry_bounds _ _ _ rfl h1
  refine ⟨_, h1, h2.1, h2.2 ?_⟩
  intro t ht
  simp only [List.mem_cons, List.not_mem_nil, or_false] at ht
  rcases ht with rfl | rfl | rfl
  · exact ⟨-1000, by norm_num⟩
  · exact ⟨-500, by norm_num⟩
  · exact ⟨700, by norm_num⟩

/-- For cent-multiple spend amounts, the rounded percentages over the breakdown
of a spend list `ts` sum to 100 up to one half-cent of rounding per entry. -/
theorem sum_percentage_bound (ts : List Transaction)
    (hcent : ∀ t ∈ ts, ∃ k : ℤ, |t.amount| = (k : ℚ) / 100)
    (hpos : 0 < sumBy (fun t => |t.amount|) ts) :
    |sumBy CategoryAggregate.percentage
        (((buildCategories ts).map
          (finalizeCategory (sumBy (fun t => |t.amount|) ts))).insertionSort byAmountDesc) -
      100| ≤
      (((((buildCategories ts).map
        (finalizeCategory (sumBy (fun t => |t.amount|) ts))).insertionSort
          byAmountDesc).length : ℚ)) * (1 / 200) := by
  set T := sumBy (fun t => |t.amount|) ts with hT
  set cats := buildCategories ts with hcatsd
  set mapped := cats.map (finalizeCategory T) with hmapped
  have hperm := List.perm_insertionSort byAmountDesc mapped
  have hsum : sumBy CategoryAggregate.percentage (mapped.insertionSort byAmountDesc) =
      sumBy CategoryAggregate.percentage mapped := by
    rw [sumBy_eq_sum_map, sumBy_eq_sum_map]
    exact (hperm.map CategoryAggregate.percentage).sum_eq
  have hlen : (mapped.insertionSort byAmountDesc).length = mapped.length := hperm.length_eq
  rw [hsum, hlen, hmapped, sumBy_map, List.length_map]
  have hcent2 : ∀ c ∈ cats, round2 c.amount = c.amount := by
    intro c hc0
    refine round2_eq_self_of_cent ?_
    rw [hcatsd] at hc0
    rw [amount_buildCategories ts c hc0]
    exact cent_sumBy fun t ht => hcent t (List.mem_of_mem_filter ht)
  have hbound : ∀ c ∈ cats,
      |(finalizeCategory T c).percentage - c.amount / T * 100| ≤ 1 / 200 := by
    intro c hc0
    have hpc : (finalizeCategory T c).percentage = round2 (c.amount / T * 100) := by
      show round2 (round2 c.amount / T * 100) = _
      rw [hcent2 c hc0]
    rw [hpc]
    exact abs_round2_sub_le _
  have hmain : |sumBy (fun c => (finalizeCategory T c).percentage) cats -
      sumBy (fun c => c.amount / T * 100) cats| ≤ (cats.length : ℚ) * (1 / 200) :=
    abs_sumBy_sub_le hbound
  have hg : sumBy (fun c => c.amount / T * 100) cats = 100 := by
    rw [sumBy_div_mul CatAcc.amount T, hcatsd, sum_amount_buildCategories, ← hT,
      div_self (ne_of_gt hpos), one_mul]
  calc |sumBy (fun c => (finalizeCategory T c).percentage) cats - 100|
      = |sumBy (fun c => (finalizeCategory T c).percentage) cats -
          sumBy (fun c => c.amount / T * 100) cats| := by rw [hg]
    _ ≤ (cats.length : ℚ) * (1 / 200) := hmain

/-- Counterexample for C7 as stated: with the single spend transaction
`-0.006`, the only percentage is `166.67`, so the percentage sum differs from
100 by `66.67`, far beyond the half-cent-per-entry rounding tolerance of the
2-decimal percentage rounding. -/
theorem percentage_sum_counterexample :
    calculateFinancialMetrics (some ⟨"q", "$", some [⟨"d", "y", -(3 / 500), "D", "e"⟩], none⟩) =
      some ⟨"q", "$", [⟨"d", "y", -(3 / 500), "D", "e"⟩], 3 / 500, "$0.01",
        [⟨"D", 1 / 100, 16667 / 100, "e"⟩], ⟨0, 0, []⟩⟩ ∧
    (0 : ℚ) < 3 / 500 ∧
    ¬(|sumBy CategoryAggregate.percentage
          [(⟨"D", 1 / 100, 16667 / 100, "e"⟩ : CategoryAggregate)] - 100| ≤
        (([(⟨"D", 1 / 100, 16667 / 100, "e"⟩ : CategoryAggregate)].length : ℚ)) * (1 / 200)) := by
  refine ⟨?_, by norm_num, ?_⟩
  · norm_num [calculateFinancialMetrics, buildCategories, insertSpendTransaction, bumpAmount,
      finalizeCategory, byAmountDesc, round2, toFixed2, sumBy, List.insertionSort,
      abs_of_nonneg, abs_neg]
    rfl
  · rw [sumBy_singleton]
    norm_num [abs_of_nonneg]

/-- C7 (amended): whenever `totalSpend > 0` and every transaction amount is an
integer multiple of `0.01`, the percentages in `categoryBreakdown` sum to 100
within the rounding tolerance of one half-cent (`1/200`) per entry.  Without
the cent-multiple hypothesis the claim fails (see the counterexample): the
category amounts are rounded before the division, which can move the sum of
percentages arbitrarily far from 100 for sub-cent totals. -/
theorem percentage_sum_within_tolerance (p : PeriodData) (l : List Transaction)
    (s : PeriodSummary) (h : p.transactions = some l)
    (hcent : ∀ t ∈ l, ∃ k : ℤ, t.amount = (k : ℚ) / 100)
    (hs : calculateFinancialMetrics (some p) = some s)
    (hpos : 0 < s.totalSpend) :
    |sumBy CategoryAggregate.percentage s.categoryBreakdown - 100| ≤
      (s.categoryBreakdown.length : ℚ) * (1 / 200) := by
  rw [calculateFinancialMetrics_some h] at hs
  obtain rfl := (Option.some.inj hs).symm
  exact sum_percentage_bound (spendOf l)
    (fun t ht => cent_abs (hcent t (List.mem_of_mem_filter ht))) hpos

/-- Witness for the amended C7 at a concrete two-category cent input whose
percentages sum to exactly 100. -/
theorem percentage_sum_within_tolerance_witness :
    ∃ s, calculateFinancialMetrics (some ⟨"p", "$",
        some [⟨"d", "a", -10, "A", "e1"⟩, ⟨"d", "b", -5, "B", "e2"⟩], none⟩) = some s ∧
      0 < s.totalSpend ∧
      |sumBy CategoryAggregate.percentage s.categoryBreakdown - 100| ≤
        (s.categoryBreakdown.length : ℚ) * (1 / 200) := by
  have h1 : calculateFinancialMetrics (some ⟨"p", "$",
      some [⟨"d", "a", -10, "A", "e1"⟩, ⟨"d", "b", -5, "B", "e2"⟩], none⟩) =
      some ⟨"p", "$", [⟨"d", "a", -10, "A", "e1"⟩, ⟨"d", "b", -5, "B", "e2"⟩], 15, "$15.00",
        [⟨"A", 10, 6667 / 100, "e1"⟩, ⟨"B", 5, 3333 / 100, "e2"⟩], ⟨0, 0, []⟩⟩ := by
    norm_num +decide [calculateFinancialMetrics, buildCategories, insertSpendTransaction,
      bumpAmount, finalizeCategory, byAmountDesc, round2, toFixed2, sumBy, List.insertionSort,
      List.orderedInsert, abs_of_nonneg, abs_neg]
  have hcent : ∀ t ∈ [(⟨"d", "a", -10, "A", "e1"⟩ : Transaction), ⟨"d", "b", -5, "B", "e2"⟩],
      ∃ k : ℤ, t.amount = (k : ℚ) / 100 := by
    intro t ht
    simp only [List.mem_cons, List.not_mem_nil, or_false] at ht
    rcases ht with rfl | rfl
    · exact ⟨-1000, by norm_num⟩
    · exact ⟨-500, by norm_num⟩
  have h2 := percentage_sum_within_tolerance _ _ _ rfl hcent h1 (by norm_num)
  exact ⟨_, h1, by norm_num, h2⟩
